import Mathlib

/-!
Verification development for the Guo firmware mathematics routines.

The source consists of `number_theory.cpp` (gauss_sum, combination,
permutation, divisibility_theorem), `distributions.cpp` (binomial pmf and
mean), the `data` namespace of wide numeric typedefs, and an unrelated
decompression collaborator.  The embedding below models C++ `double` and the
`double8192_t` wide-float placeholders as exact rationals (`Rat`), C++ `long`
and `int` as unbounded `Int` (noting explicitly where unsigned wraparound or
truncating division matters), and the spec's explicit failure results as an
`Except` over an error enumeration.  Arrays passed as pointer parameters are
modelled as memory, i.e. functions `Nat → Rat`, because the source indexes
them through `sizeof`-of-a-pointer bounds that ignore the actual element
count.
-/

set_option maxRecDepth 8192

/-- Error kinds of the spec's §7 error-handling design. -/
inductive Err where
  | divisionByZero
  | overflow
  | invalidRange
  | emptySample
  | nonConvergence
deriving DecidableEq

instance instDecEqExcept {ε α : Type} [DecidableEq ε] [DecidableEq α] :
    DecidableEq (Except ε α) := fun x y =>
  match x, y with
  | Except.error a, Except.error b =>
      decidable_of_iff (a = b) ⟨fun h => by rw [h], fun h => by injection h⟩
  | Except.error _, Except.ok _ => isFalse (fun h => Except.noConfusion h)
  | Except.ok _, Except.error _ => isFalse (fun h => Except.noConfusion h)
  | Except.ok a, Except.ok b =>
      decidable_of_iff (a = b) ⟨fun h => by rw [h], fun h => by injection h⟩

namespace number_theory

/-- Modelled from the spec: `factorial` is called by `combination` and
`permutation` (and, through `combination`, by the pmf routine), but no
definition of it appears anywhere in the source tree.  Per the spec it is
defined for `n ≥ 0` with `factorial(0) = 1`, computed iteratively as repeated
multiplication in a flat loop, and a negative argument is an `InvalidRange`
failure reported to the caller as an explicit failure result. -/
def factorial (n : Int) : Except Err Int :=
  if n < 0 then Except.error Err.invalidRange
  else Except.ok ((List.range n.toNat).foldl (fun (acc : Int) (i : Nat) => acc * ((i : Int) + 1)) 1)

/-- Embedding of `number_theory::gauss_sum`: `(n*(n+1))/2` in C++ `int`
arithmetic.  C++ integer division truncates toward zero (`Int.tdiv`); the
quotient is then stored into a `double`, modelled as `Rat`. -/
def gauss_sum (n : Int) : Rat := ((Int.tdiv (n * (n + 1)) 2 : Int) : Rat)

/-- Embedding of `number_theory::combination`: computes `factorial(n)`,
`factorial(n-r)`, `factorial(r)` in that order and returns the
`double8192_t` quotient `n! / ((n-r)! * r!)`, modelled as exact rational
division.  A failure of an earlier `factorial` call propagates before a later
call's failure could. -/
def combination (n r : Int) : Except Err Rat :=
  match factorial n with
  | Except.error e => Except.error e
  | Except.ok n_factorial =>
    match factorial (n - r) with
    | Except.error e => Except.error e
    | Except.ok n_r_factorial =>
      match factorial r with
      | Except.error e => Except.error e
      | Except.ok r_factorial =>
          Except.ok ((n_factorial : Rat) / ((n_r_factorial : Rat) * (r_factorial : Rat)))

/-- Embedding of `number_theory::permutation`: computes `factorial(n)` and
`factorial(n-r)` and returns the quotient `n! / (n-r)!`; the source performs
no range check of its own. -/
def permutation (n r : Int) : Except Err Rat :=
  match factorial n with
  | Except.error e => Except.error e
  | Except.ok n_factorial =>
    match factorial (n - r) with
    | Except.error e => Except.error e
    | Except.ok n_r_factorial =>
        Except.ok ((n_factorial : Rat) / (n_r_factorial : Rat))

/-- One pass of the loop body of `number_theory::divisibility_theorem`:
`q = a/b; r = a - q; b = q;` on `double`s, modelled as exact rationals.
The state tuple is `(q, r, b)`. -/
def divStep (a : Rat) (st : Rat × Rat × Rat) : Rat × Rat × Rat :=
  let q := a / st.2.2
  (q, a - q, q)

/-- The `for` loop of `divisibility_theorem`, run for a fixed number of
passes. -/
def divLoop (a : Rat) : Nat → Rat × Rat × Rat → Rat × Rat × Rat
  | 0, st => st
  | m + 1, st => divLoop a m (divStep a st)

/-- Embedding of `number_theory::divisibility_theorem`.  The loop runs
`interations` times (zero times when `interations ≤ 0`, since the counter
starts at 0), starting from `q = 0, r = 0` and the given `b`, and the
function then returns `{q, r}` unconditionally: the source has no failure
path, neither for `b = 0` nor for non-convergence. -/
def divisibility_theorem (a b : Rat) (interations : Int) : Rat × Rat :=
  let st := divLoop a interations.toNat (0, 0, b)
  (st.1, st.2.1)

end number_theory

namespace binomial_distribution

/-- Size in bytes of a pointer on the LP64 targets this firmware addresses:
`sizeof` applied to an array-typed parameter (`double set[]`, which decays to
`double *`) yields the size of the pointer, 8, not the element count of the
array. -/
def sizeofPtr : Nat := 8

/-- The scan `for (l = 0; l < bound; l++) if (set[l] == value) count++`
shared by `pmf` and `mean`, accumulating in ascending index order. -/
def scanCountTo (set : Nat → Rat) (v : Rat) : Nat → Int
  | 0 => 0
  | l + 1 => scanCountTo set v l + if set l = v then 1 else 0

/-- The full scan of `pmf` and `mean`: its bound is `sizeof(set)`, so it
counts the matches among the 8 doubles at indices `0..7`, whatever the actual
sample count is. -/
def scanCount (set : Nat → Rat) (v : Rat) : Int :=
  scanCountTo set v sizeofPtr

/-- Value `p = count / sizeof(set)` of `binomial_distribution::mean`: `count`
is a C++ `long`, so the division is an integer quotient, whose value is then
stored into the `double` `p`.  `count` is nonnegative, where the signed
quotient agrees with the C++ `long`-by-`size_t` unsigned division. -/
def meanP (set : Nat → Rat) (v : Rat) : Rat :=
  ((scanCount set v / (sizeofPtr : Int) : Int) : Rat)

/-- Embedding of `binomial_distribution::mean`: counts matches over the
`sizeof`-bounded scan, computes `p = count / sizeof(set)`, and returns the
local variable `mean`, which still holds its initial value `0`; neither `p`
nor the trial count `n` reaches the returned value. -/
def mean (set : Nat → Rat) (v : Rat) (n : Int) : Rat :=
  let p := meanP set v
  let m : Rat := 0
  m

/-- State of the locals of `binomial_distribution::pmf` that survive across
loop iterations: `count`, `p`, `q`, `ncr` (all C++ `long`), and the `result`
array modelled as the contents of memory indexed by `Nat`. -/
structure PmfState where
  count : Int
  p : Int
  q : Int
  ncr : Int
  result : Nat → Rat

/-- Initial locals of `pmf`: `count = 0, ncr = 1, p = 1, q = 0`, with the
uninitialized stack array `result` supplied as a parameter. -/
def pmfInit (r0 : Nat → Rat) : PmfState :=
  { count := 0, p := 1, q := 0, ncr := 1, result := r0 }

/-- Array write `result[k] = x` on the memory model. -/
def writeAt (r : Nat → Rat) (k : Nat) (x : Rat) : Nat → Rat :=
  fun i => if i = k then x else r i

/-- Repeated squaring `for (l = 0; l < m; l++) x = x * x`. -/
def sqLoop (x : Int) : Nat → Int
  | 0 => x
  | m + 1 => sqLoop (x * x) m

/-- Pass count `sizeof(set) - iteration` of the `q`-squaring loop: the
subtraction is computed in `size_t`, so it wraps modulo `2^64` when the
iteration counter exceeds 8. -/
def qReps (k : Nat) : Nat := ((((sizeofPtr : Int) - (k : Int))) % (2 ^ 64)).toNat

/-- Accumulated `count` after the scan of iteration `k ≥ 1`: the counter is
declared outside the `do`-`while` loop and never reset, so each iteration
adds a full scan's matches to it. -/
def pmfCount (set : Nat → Rat) (v : Rat) (s : PmfState) : Int :=
  s.count + scanCount set v

/-- Value `p = count / sizeof(set)` assigned in iteration `k ≥ 1` of `pmf`:
an integer quotient, because `count` and `p` are C++ `long`s and `sizeof`
yields 8.  `count` is nonnegative in every state the loop reaches, where this
signed quotient agrees with the C++ unsigned division. -/
def pmfPhat (set : Nat → Rat) (v : Rat) (s : PmfState) : Int :=
  pmfCount set v s / (sizeofPtr : Int)

/-- Conversion of the `double8192_t` returned by `combination` to the `long`
`ncr`: C++ floating-to-integer conversion truncates toward zero. -/
def ratTruncToInt (x : Rat) : Int := Int.tdiv x.num (x.den : Int)

/-- One pass of the `do`-`while` body of `binomial_distribution::pmf` at loop
counter `k`.  For `k = 0`: `q = 1 - p` is squared `sizeof(set) - 0 = 8`
times and `result[0] = 1 * p * q` is stored.  For `k ≥ 1`: the scan adds its
matches to `count`, then `p = count / sizeof(set)`, `q = 1 - p`, `p` is
squared `k` times, `q` is squared `sizeof(set) - k` times,
`ncr = combination(number_of_iteraions, k)` (the unqualified call resolving
to `number_theory::combination`, the only failure source), and
`result[k] = ncr * p * q` is stored — a `long` product. -/
def pmfStep (set : Nat → Rat) (v : Rat) (n : Int) (k : Nat) (s : PmfState) :
    Except Err PmfState :=
  if k = 0 then
    let q1 := sqLoop (1 - s.p) (qReps 0)
    Except.ok { s with q := q1, result := writeAt s.result 0 ((1 * s.p * q1 : Int) : Rat) }
  else
    Except.map
      (fun c =>
        let p2 := sqLoop (pmfPhat set v s) k
        let q2 := sqLoop (1 - pmfPhat set v s) (qReps k)
        let ncr1 := ratTruncToInt c
        { count := pmfCount set v s, p := p2, q := q2, ncr := ncr1,
          result := writeAt s.result k ((ncr1 * p2 * q2 : Int) : Rat) })
      (number_theory.combination n (k : Int))

/-- Driver of the `do`-`while` loop over the executed loop-counter values. -/
def pmfLoop (set : Nat → Rat) (v : Rat) (n : Int) :
    List Nat → PmfState → Except Err PmfState
  | [], s => Except.ok s
  | k :: ks, s =>
    match pmfStep set v n k s with
    | Except.error e => Except.error e
    | Except.ok s1 => pmfLoop set v n ks s1

/-- Embedding of `binomial_distribution::pmf`.  A `do`-`while` loop executes
its body at least once, so the executed counter values are
`0, 1, ..., max(number_of_iteraions, 1) - 1`; the function then returns the
`result` array (whose declared size is again `sizeof(set)` = 8).  `r0` is the
arbitrary initial content of the uninitialized stack array. -/
def pmf (set : Nat → Rat) (v : Rat) (n : Int) (r0 : Nat → Rat) :
    Except Err (Nat → Rat) :=
  Except.map PmfState.result (pmfLoop set v n (List.range (max n 1).toNat) (pmfInit r0))

/-- Sample memory for the spec's worked example `[1,0,1,1,0]`: the
`sizeof`-bounded scan reads 8 doubles, three of them past the end of the
5-element array; that out-of-bounds memory is taken to be zero here. -/
def exSet : Nat → Rat := fun i => ([1, 0, 1, 1, 0] : List Rat).getD i 0

/-- Zero-filled memory, used as a concrete content for the uninitialized
`result` array. -/
def zeroMem : Nat → Rat := fun _ => 0

end binomial_distribution

namespace number_theory

theorem factorial_foldl_eq (m : Nat) (a : Int) :
    (List.range m).foldl (fun (acc : Int) (i : Nat) => acc * ((i : Int) + 1)) a =
      a * (Nat.factorial m : Int) := by
  induction m generalizing a with
  | zero => simp [Nat.factorial]
  | succ k ih =>
    rw [List.range_succ, List.foldl_append, ih]
    simp only [List.foldl_cons, List.foldl_nil, Nat.factorial_succ]
    push_cast
    ring

theorem factorial_ok (n : Int) (h : 0 ≤ n) :
    factorial n = Except.ok ((Nat.factorial n.toNat : Nat) : Int) := by
  unfold factorial
  rw [if_neg (not_lt.mpr h), factorial_foldl_eq, one_mul]

theorem factorial_err (n : Int) (h : n < 0) :
    factorial n = Except.error Err.invalidRange := by
  unfold factorial
  rw [if_pos h]

theorem combination_ok (n r : Int) (h0 : 0 ≤ r) (h1 : r ≤ n) :
    combination n r = Except.ok ((Nat.factorial n.toNat : Rat) /
      ((Nat.factorial (n - r).toNat : Rat) * (Nat.factorial r.toNat : Rat))) := by
  unfold combination
  rw [factorial_ok n (le_trans h0 h1), factorial_ok (n - r) (by omega), factorial_ok r h0]
  push_cast
  rfl

theorem permutation_ok (n r : Int) (h0 : 0 ≤ n) (h1 : 0 ≤ n - r) :
    permutation n r = Except.ok ((Nat.factorial n.toNat : Rat) /
      (Nat.factorial (n - r).toNat : Rat)) := by
  unfold permutation
  rw [factorial_ok n h0, factorial_ok (n - r) h1]
  push_cast
  rfl

/-- Claim C4: for all integers `0 ≤ r ≤ n`, `combination(n, r)` equals
`combination(n, n-r)`, `combination(n, 0)` equals `1`, and
`combination(n, n)` equals `1` (settled against the spec-modelled
`factorial`, whose definition is absent from the source tree). -/
theorem combination_symm_bounds (n r : Int) (h0 : 0 ≤ r) (h1 : r ≤ n) :
    combination n r = combination n (n - r) ∧
    combination n 0 = Except.ok 1 ∧
    combination n n = Except.ok 1 := by
  have hn : 0 ≤ n := le_trans h0 h1
  have hfne : ∀ m : Nat, ((Nat.factorial m : Rat)) ≠ 0 := fun m => by
    exact_mod_cast Nat.factorial_ne_zero m
  refine ⟨?_, ?_, ?_⟩
  · rw [combination_ok n r h0 h1, combination_ok n (n - r) (by omega) (by omega)]
    have hrr : n - (n - r) = r := by ring
    rw [hrr, mul_comm]
  · rw [combination_ok n 0 le_rfl hn]
    rw [sub_zero]
    norm_num [Nat.factorial]
    exact div_self (hfne n.toNat)
  · rw [combination_ok n n hn le_rfl]
    rw [sub_self]
    norm_num [Nat.factorial]
    exact div_self (hfne n.toNat)

/-- Witness for C4 at `(n, r) = (4, 1)`. -/
theorem combination_symm_bounds_witness :
    combination 4 1 = combination 4 3 ∧
    combination 4 0 = Except.ok 1 ∧
    combination 4 4 = Except.ok 1 := by
  have h := combination_symm_bounds 4 1 (by norm_num) (by norm_num)
  norm_num at h
  exact h

theorem two_mul_sum_range (m : Nat) :
    2 * ((Finset.range (m + 1)).sum (fun i => i)) = m * (m + 1) := by
  induction m with
  | zero => simp
  | succ k ih =>
    rw [Finset.sum_range_succ, Nat.mul_add, ih]
    ring

/-- Claim C5: for every `n ≥ 0`, `gauss_sum n` equals `n*(n+1)/2` and equals
the direct summation `0 + 1 + ... + n`. -/
theorem gauss_sum_correct (n : Int) (h : 0 ≤ n) :
    gauss_sum n = ((n * (n + 1) / 2 : Int) : Rat) ∧
    gauss_sum n = (Finset.range (n.toNat + 1)).sum (fun i => (i : Rat)) := by
  obtain ⟨m, rfl⟩ := Int.eq_ofNat_of_zero_le h
  have hdiv : Int.tdiv ((m : Int) * ((m : Int) + 1)) 2 = ((m : Int) * ((m : Int) + 1)) / 2 :=
    Int.tdiv_eq_ediv (by positivity) (by norm_num)
  have hmul : ((m : Int) * ((m : Int) + 1)) =
      2 * (((Finset.range (m + 1)).sum (fun i => i) : Nat) : Int) := by
    exact_mod_cast congrArg (fun x : Nat => (x : Int)) (two_mul_sum_range m).symm
  constructor
  · unfold gauss_sum
    rw [hdiv]
  · unfold gauss_sum
    rw [hdiv, hmul, Int.mul_ediv_cancel_left _ (by norm_num)]
    push_cast
    simp

/-- Witness for C5 at `n = 5`: `gauss_sum 5 = 15 = 0+1+2+3+4+5`. -/
theorem gauss_sum_correct_witness :
    gauss_sum 5 = (Finset.range 6).sum (fun i => (i : Rat)) ∧ gauss_sum 5 = 15 := by
  constructor
  · exact (gauss_sum_correct 5 (by norm_num)).2
  · norm_num [gauss_sum, Int.tdiv]

/-- Claim C7 counterexample: the source's `permutation` performs no range
check, so at `(n, r) = (3, -2)` — where the claim demands an `InvalidRange`
failure because `r < 0` — it calls `factorial(3)` and `factorial(5)`, both of
which succeed, and returns `3! / 5! = 1/20` instead of failing. -/
theorem permutation_r_neg_returns_value :
    (-2 : Int) < 0 ∧ permutation 3 (-2) = Except.ok (1 / 20) := by
  constructor
  · norm_num
  · rw [permutation_ok 3 (-2) (by norm_num) (by norm_num)]
    norm_num [Nat.factorial]

/-- Claim C7 as amended: for every pair `(n, r)` with `r < 0` or `r > n`,
`combination(n, r)` fails with `InvalidRange` (one of its three `factorial`
calls receives a negative argument), and `permutation(n, r)` fails with
`InvalidRange` when `r > n` or `n < 0`; but when `r < 0 ≤ n` the
`permutation` routine returns the value `n! / (n-r)!` rather than failing,
because neither of its two `factorial` calls sees a negative argument. -/
theorem range_check_via_factorial (n r : Int)
    (h : r < 0 ∨ n < r) :
    combination n r = Except.error Err.invalidRange ∧
    (n < r ∨ n < 0 → permutation n r = Except.error Err.invalidRange) ∧
    (r < 0 → 0 ≤ n → permutation n r =
      Except.ok ((Nat.factorial n.toNat : Rat) / (Nat.factorial (n - r).toNat : Rat))) := by
  refine ⟨?_, ?_, ?_⟩
  · unfold combination
    rcases lt_or_le n 0 with hn | hn
    · rw [factorial_err n hn]
    · rcases h with hr | hr
      · rw [factorial_ok n hn, factorial_ok (n - r) (by omega), factorial_err r hr]
      · rw [factorial_ok n hn, factorial_err (n - r) (by omega)]
  · intro hcase
    unfold permutation
    rcases lt_or_le n 0 with hn | hn
    · rw [factorial_err n hn]
    · have hr : n < r := by omega
      rw [factorial_ok n hn, factorial_err (n - r) (by omega)]
  · intro hr hn
    exact permutation_ok n r hn (by omega)

/-- Witness for the amended C7 at `(n, r) = (3, -2)`. -/
theorem range_check_via_factorial_witness :
    combination 3 (-2) = Except.error Err.invalidRange ∧
    permutation 3 (-2) = Except.ok ((Nat.factorial 3 : Rat) / (Nat.factorial 5 : Rat)) := by
  have h := range_check_via_factorial 3 (-2) (Or.inl (by norm_num))
  refine ⟨h.1, ?_⟩
  have h2 := h.2.2 (by norm_num) (by norm_num)
  norm_num at h2 ⊢
  exact h2

/-- Claim C2 (code evaluation at the failing input): on
`(a, b, K) = (17, 5, 10)` the source's `divisibility_theorem` returns
`(5, 12)` — the loop body sets `r = a - q` instead of `a - q*b` and feeds
`q` back in as the next divisor, oscillating between `(17/5, 68/5)` and
`(5, 12)` — not the Euclidean pair `(3, 2)`, and the returned pair violates
`a = q*b + r`. -/
theorem divisibility_theorem_17_5_10 :
    divisibility_theorem 17 5 10 = (5, 12) ∧
    divisibility_theorem 17 5 10 ≠ ((3 : Rat), (2 : Rat)) ∧
    (divisibility_theorem 17 5 10).1 * 5 + (divisibility_theorem 17 5 10).2 ≠ 17 := by
  have h : divisibility_theorem 17 5 10 = (5, 12) := by
    norm_num [divisibility_theorem, divLoop, divStep]
  refine ⟨h, ?_, ?_⟩
  · rw [h]
    intro hc
    have := congrArg Prod.fst hc
    norm_num at this
  · rw [h]
    norm_num

/-- Claim C6 (code evaluation at the failing input): with
`max_iterations = 0` the loop never runs, the candidate pair stays `(0, 0)`,
`17 = q*5 + r` is not satisfied, and yet the function returns `(0, 0)`
normally — the source has no `NonConvergence` (nor `DivisionByZero`) failure
path at all. -/
theorem divisibility_theorem_no_failure :
    divisibility_theorem 17 5 0 = (0, 0) ∧
    (divisibility_theorem 17 5 0).1 * 5 + (divisibility_theorem 17 5 0).2 ≠ 17 := by
  have h : divisibility_theorem 17 5 0 = (0, 0) := rfl
  refine ⟨h, ?_⟩
  rw [h]
  norm_num

end number_theory

namespace binomial_distribution

theorem scanCountTo_nonneg (set : Nat → Rat) (v : Rat) (m : Nat) :
    0 ≤ scanCountTo set v m := by
  induction m with
  | zero => simp [scanCountTo]
  | succ l ih =>
    unfold scanCountTo
    split <;> omega

theorem scanCountTo_congr (set set2 : Nat → Rat) (v : Rat) (m : Nat)
    (h : ∀ i, i < m → set i = set2 i) :
    scanCountTo set v m = scanCountTo set2 v m := by
  induction m with
  | zero => rfl
  | succ l ih =>
    unfold scanCountTo
    rw [ih (fun i hi => h i (by omega)), h l (by omega)]

theorem intCast_ne_three_fifths (z : Int) : ((z : Rat)) ≠ 3 / 5 := by
  intro hz
  have h5 : ((5 * z : Int) : Rat) = 3 := by
    push_cast
    rw [hz]
    ring
  have h6 : (5 * z : Int) = 3 := by exact_mod_cast h5
  omega

theorem sqLoop_zero (m : Nat) : sqLoop 0 m = 0 := by
  induction m with
  | zero => rfl
  | succ l ih =>
    unfold sqLoop
    simpa using ih

theorem sqLoop_one (m : Nat) : sqLoop 1 m = 1 := by
  induction m with
  | zero => rfl
  | succ l ih =>
    unfold sqLoop
    simpa using ih

theorem qReps_le (k : Nat) (h : k ≤ 8) : qReps k = 8 - k := by
  unfold qReps sizeofPtr
  push_cast
  omega

/-- Claim C9: in both `pmf` and `mean` the sample length used is
`sizeofPtr = 8`, the byte size of the pointer parameter, not the element
count — the scan's outcome only depends on the 8 doubles at indices `0..7` —
and `p` is the integer quotient of the match counter by that pointer size:
it is exactly `0` whenever the counter holds fewer than 8 matches, it is
always an integer, and it is never a fractional value such as `0.6`. -/
theorem p_integer_quotient (set : Nat → Rat) (v : Rat) (s : PmfState)
    (hc : 0 ≤ s.count) :
    (∀ set2 : Nat → Rat, (∀ i, i < sizeofPtr → set i = set2 i) →
        scanCount set v = scanCount set2 v) ∧
    meanP set v = ((scanCount set v / (sizeofPtr : Int) : Int) : Rat) ∧
    (scanCount set v < (sizeofPtr : Int) → meanP set v = 0) ∧
    (pmfCount set v s < (sizeofPtr : Int) → pmfPhat set v s = 0) ∧
    (∃ z : Int, meanP set v = (z : Rat)) ∧
    meanP set v ≠ 3 / 5 ∧ ((pmfPhat set v s : Int) : Rat) ≠ 3 / 5 := by
  have hnn : 0 ≤ scanCount set v := scanCountTo_nonneg set v sizeofPtr
  refine ⟨?_, rfl, ?_, ?_, ⟨_, rfl⟩, intCast_ne_three_fifths _, intCast_ne_three_fifths _⟩
  · intro set2 h
    exact scanCountTo_congr set set2 v sizeofPtr h
  · intro hlt
    unfold meanP
    rw [Int.ediv_eq_zero_of_lt hnn hlt]
    norm_num
  · intro hlt
    unfold pmfPhat
    have hcc : 0 ≤ pmfCount set v s := by
      unfold pmfCount
      omega
    rw [Int.ediv_eq_zero_of_lt hcc hlt]

/-- Witness for C9 on zero-filled sample memory with target `1` and the
initial loop state. -/
theorem p_integer_quotient_witness : meanP zeroMem 1 = 0 :=
  (p_integer_quotient zeroMem 1 (pmfInit zeroMem) (by norm_num [pmfInit])).2.2.1
    (by norm_num [scanCount, scanCountTo, zeroMem, sizeofPtr])

theorem pmfStep_pos_ok (set : Nat → Rat) (v : Rat) (n : Int) (k : Nat)
    (s : PmfState) (h1 : 1 ≤ k) (h2 : (k : Int) < n) :
    ∃ s1, pmfStep set v n k s = Except.ok s1 ∧ s1.result 0 = s.result 0 := by
  have hk : ¬ (k = 0) := by omega
  have hcomb := number_theory.combination_ok n (k : Int)
    (Int.natCast_nonneg k) (le_of_lt h2)
  unfold pmfStep
  rw [if_neg hk, hcomb]
  refine ⟨_, rfl, ?_⟩
  show writeAt s.result k _ 0 = s.result 0
  unfold writeAt
  rw [if_neg (by omega : ¬ ((0 : Nat) = k))]

theorem pmfLoop_cons_ok (set : Nat → Rat) (v : Rat) (n : Int) (k : Nat)
    (ks : List Nat) (s s1 : PmfState) (h : pmfStep set v n k s = Except.ok s1) :
    pmfLoop set v n (k :: ks) s = pmfLoop set v n ks s1 := by
  simp only [pmfLoop]
  rw [h]

theorem pmfLoop_ok_preserves (set : Nat → Rat) (v : Rat) (n : Int)
    (ks : List Nat) :
    ∀ s : PmfState, (∀ k ∈ ks, 1 ≤ k ∧ (k : Int) < n) →
      ∃ s1, pmfLoop set v n ks s = Except.ok s1 ∧ s1.result 0 = s.result 0 := by
  induction ks with
  | nil => exact fun s _ => ⟨s, rfl, rfl⟩
  | cons k ks ih =>
    intro s hmem
    obtain ⟨hk1, hk2⟩ := hmem k (List.mem_cons_self k ks)
    obtain ⟨s1, hs1, hr1⟩ := pmfStep_pos_ok set v n k s hk1 hk2
    obtain ⟨s2, hs2, hr2⟩ := ih s1 (fun j hj => hmem j (List.mem_cons_of_mem k hj))
    refine ⟨s2, ?_, by rw [hr2, hr1]⟩
    unfold pmfLoop
    rw [hs1]
    exact hs2

theorem pmfStep_zero_result (set : Nat → Rat) (v : Rat) (n : Int)
    (r0 : Nat → Rat) :
    ∃ s1, pmfStep set v n 0 (pmfInit r0) = Except.ok s1 ∧ s1.result 0 = 0 := by
  refine ⟨_, rfl, ?_⟩
  show writeAt r0 0 ((1 * (pmfInit r0).p * sqLoop (1 - (pmfInit r0).p) (qReps 0) : Int) : Rat) 0 = 0
  unfold writeAt pmfInit
  rw [if_pos rfl]
  norm_num [sqLoop_zero]

/-- Claim C10: for every sample memory, target value, trial count and initial
array content, `pmf` succeeds and the first entry of the returned array is
exactly `0`: iteration 0 stores `1 * p * q` with the initial `p = 1` and
`q = 1 - p = 0` (then squared eight times), never estimating `p` from the
samples, and no later iteration writes index 0. -/
theorem pmf_first_entry_zero (set : Nat → Rat) (v : Rat) (n : Int)
    (r0 : Nat → Rat) :
    Except.map (fun f => f 0) (pmf set v n r0) = Except.ok 0 := by
  unfold pmf
  have hm : (max n 1).toNat = ((max n 1).toNat - 1) + 1 := by omega
  rw [hm, List.range_succ_eq_map]
  obtain ⟨s1, h1, hr1⟩ := pmfStep_zero_result set v n r0
  have hmem : ∀ k ∈ List.map Nat.succ (List.range ((max n 1).toNat - 1)),
      1 ≤ k ∧ (k : Int) < n := by
    intro k hk
    simp only [List.mem_map, List.mem_range] at hk
    obtain ⟨j, hj, rfl⟩ := hk
    have hcast : ((max n 1).toNat : Int) = max n 1 :=
      Int.toNat_of_nonneg (le_trans (by norm_num) (le_max_right n 1))
    refine ⟨by omega, ?_⟩
    have hlt : ((Nat.succ j : Nat) : Int) < ((max n 1).toNat : Int) := by
      exact_mod_cast (by omega : Nat.succ j < (max n 1).toNat)
    rw [hcast] at hlt
    have hone : (1 : Int) ≤ ((Nat.succ j : Nat) : Int) := by
      exact_mod_cast Nat.succ_le_succ (Nat.zero_le j)
    rcases max_cases n 1 with ⟨he, _⟩ | ⟨he, _⟩
    · rwa [he] at hlt
    · rw [he] at hlt
      omega
  obtain ⟨s2, h2, hr2⟩ := pmfLoop_ok_preserves set v n _ s1 hmem
  rw [pmfLoop_cons_ok set v n 0 _ (pmfInit r0) s1 h1, h2]
  simp [Except.map, hr2, hr1]

/-- Claim C1 (code evaluation at the failing input): on samples
`[1,0,1,1,0]` (with the out-of-bounds tail of the scan reading zeros),
target `1` and trial count `4`, the source's `pmf` writes only the four
entries `result[0..3]`, every one of them `0` — iteration 0 stores
`1 * p * (1-p)^8 = 0` from the initial `p = 1`, and iterations 1–3 use the
integer quotients `p = 3/8 = 0`, `6/8 = 0`, `9/8 = 1`, each of which zeroes
the product `ncr * p^(2^k) * q^(2^(8-k))` — so the returned array bears no
resemblance to the claimed pmf values `0.0256, ..., 0.1296` summing to 1. -/
theorem pmf_example_flat :
    Except.map (fun f => [f 0, f 1, f 2, f 3, f 4]) (pmf exSet 1 4 zeroMem) =
      Except.ok [0, 0, 0, 0, 0] := by
  have hscan : scanCount exSet 1 = 3 := by decide
  have hc1 : number_theory.combination 4 1 = Except.ok 4 := by
    rw [number_theory.combination_ok 4 1 (by norm_num) (by norm_num)]
    norm_num [Nat.factorial]
  have hc2 : number_theory.combination 4 2 = Except.ok 6 := by
    rw [number_theory.combination_ok 4 2 (by norm_num) (by norm_num)]
    norm_num [Nat.factorial]
  have hc3 : number_theory.combination 4 3 = Except.ok 4 := by
    rw [number_theory.combination_ok 4 3 (by norm_num) (by norm_num)]
    norm_num [Nat.factorial]
  have ht4 : ratTruncToInt 4 = 4 := by
    unfold ratTruncToInt
    norm_num [Rat.num_ofNat, Rat.den_ofNat, Int.tdiv]
  have ht6 : ratTruncToInt 6 = 6 := by
    unfold ratTruncToInt
    norm_num [Rat.num_ofNat, Rat.den_ofNat, Int.tdiv]
  have h0 : pmfStep exSet 1 4 0 (pmfInit zeroMem) =
      Except.ok ⟨0, 1, 0, 1, writeAt zeroMem 0 0⟩ := by
    unfold pmfStep pmfInit
    norm_num [sqLoop_zero]
  have h1 : pmfStep exSet 1 4 1 ⟨0, 1, 0, 1, writeAt zeroMem 0 0⟩ =
      Except.ok ⟨3, 0, 1, 4, writeAt (writeAt zeroMem 0 0) 1 0⟩ := by
    unfold pmfStep
    rw [if_neg (by norm_num : ¬ ((1 : Nat) = 0))]
    norm_num [hc1, Except.map, pmfCount, pmfPhat, hscan, sizeofPtr,
      sqLoop_zero, sqLoop_one, qReps_le, ht4]
  have h2 : pmfStep exSet 1 4 2 ⟨3, 0, 1, 4, writeAt (writeAt zeroMem 0 0) 1 0⟩ =
      Except.ok ⟨6, 0, 1, 6, writeAt (writeAt (writeAt zeroMem 0 0) 1 0) 2 0⟩ := by
    unfold pmfStep
    rw [if_neg (by norm_num : ¬ ((2 : Nat) = 0))]
    norm_num [hc2, Except.map, pmfCount, pmfPhat, hscan, sizeofPtr,
      sqLoop_zero, sqLoop_one, qReps_le, ht6]
  have h3 : pmfStep exSet 1 4 3
        ⟨6, 0, 1, 6, writeAt (writeAt (writeAt zeroMem 0 0) 1 0) 2 0⟩ =
      Except.ok ⟨9, 1, 0, 4,
        writeAt (writeAt (writeAt (writeAt zeroMem 0 0) 1 0) 2 0) 3 0⟩ := by
    unfold pmfStep
    rw [if_neg (by norm_num : ¬ ((3 : Nat) = 0))]
    norm_num [hc3, Except.map, pmfCount, pmfPhat, hscan, sizeofPtr,
      sqLoop_zero, sqLoop_one, qReps_le, ht4]
  have hrange : List.range (max (4 : Int) 1).toNat = [0, 1, 2, 3] := rfl
  unfold pmf
  rw [hrange, pmfLoop_cons_ok _ _ _ _ _ _ _ h0, pmfLoop_cons_ok _ _ _ _ _ _ _ h1,
      pmfLoop_cons_ok _ _ _ _ _ _ _ h2, pmfLoop_cons_ok _ _ _ _ _ _ _ h3]
  simp only [pmfLoop, Except.map]
  norm_num [writeAt, zeroMem]

/-- Claim C8: `mean` returns the constant `0` for every sample memory, target
value and trial count; the empirical `p` it computes is discarded and never
contributes to the returned value. -/
theorem mean_constant_zero (set : Nat → Rat) (v : Rat) (n : Int) :
    mean set v n = 0 := rfl

/-- Claim C3 (code evaluation at the failing input): on the spec's example
(samples `[1,0,1,1,0]`, target `1`, trial count `4`) the source's `mean`
returns `0`, not `trial_count * p = 2.4`. -/
theorem mean_example_zero :
    mean exSet 1 4 = 0 ∧ mean exSet 1 4 ≠ 12 / 5 := by
  constructor
  · rfl
  · show (0 : Rat) ≠ 12 / 5
    norm_num

end binomial_distribution
